import Mathlib

/-!
# Persistent route store: durable backend and identifier counter

A shallow embedding of `backend/leveldb/leveldb.go` and `web/store.go`.

* Go's `(value, error)` results are pairs whose last component is `Option Err`
  (`none` is Go's `nil` error); a `nil` map or `nil` pointer is `none`.
* `uint64` is `Nat` with an explicit `% 2 ^ 64` at the increment.
* The file system and the storage engine are explicit state. A call into the
  operating system or the engine that can fail takes its failure as an argument, so
  each source branch is reachable in the model; only `os.Stat` of the directory in
  `New` is taken to report exactly whether the directory is there.
-/

namespace GoLinks

/-- One octet. -/
abbrev Byte := Fin 256

/-- Byte strings: Go `[]byte` and the bytes of a Go `string`. -/
abbrev Bytes := List Byte

/-- Error values that the modelled code can return. -/
inductive Err where
  /-- `io.EOF`: no byte could be read. -/
  | eof
  /-- `io.ErrUnexpectedEOF`: some but not all requested bytes were read. -/
  | unexpectedEOF
  /-- `leveldb.ErrNotFound` of the storage engine. -/
  | dbNotFound
  /-- `internal.ErrRouteNotFound`. -/
  | routeNotFound
  /-- Any other operating-system or engine failure, tagged by a code. -/
  | os (code : Nat)
  /-- A failure reported by the Route codec, tagged by a code. -/
  | codec (code : Nat)
deriving DecidableEq, Repr

/-! ## Counter file encoding (`encoding/binary`, little endian) -/

/-- The modulus of `uint64` arithmetic. -/
def uint64Mod : Nat := 2 ^ 64

/-- The byte of `v` at position `i`: `byte(v >> (8*i))`. -/
def byteAt (v i : Nat) : Byte := ⟨v / 256 ^ i % 256, Nat.mod_lt _ (by decide)⟩

/-- What `binary.Write(w, binary.LittleEndian, id)` writes for a `uint64`:
eight bytes, least significant first. -/
def putUint64LE (v : Nat) : Bytes :=
  [byteAt v 0, byteAt v 1, byteAt v 2, byteAt v 3, byteAt v 4, byteAt v 5, byteAt v 6, byteAt v 7]

/-- Little-endian value of a byte string (`binary.LittleEndian.Uint64` on eight bytes). -/
def uint64LE : Bytes → Nat
  | [] => 0
  | b :: bs => b.val + 256 * uint64LE bs

/-- The read half of `binary.Read(r, binary.LittleEndian, &id)`: `io.ReadFull` of eight
bytes from the start of the content, then decoding. An empty source gives `io.EOF`, a
source shorter than eight bytes `io.ErrUnexpectedEOF`; bytes after the eighth are not
looked at. -/
def binaryReadUint64 (content : Bytes) : Nat × Option Err :=
  if content.length = 0 then (0, some Err.eof)
  else if content.length < 8 then (0, some Err.unexpectedEOF)
  else (uint64LE (content.take 8), none)

/-! ## The counter file -/

/-- Where a call of `commit` fails, if it does. -/
inductive CommitFault where
  /-- Every step succeeds. -/
  | ok
  /-- `os.Create` fails: the file is not touched. -/
  | create (e : Err)
  /-- `binary.Write` fails after `n` bytes reached the (already truncated) file. -/
  | write (n : Nat) (e : Err)
  /-- `w.Sync` fails after the bytes were written. -/
  | sync (e : Err)
deriving DecidableEq, Repr

/-- Source `commit(filename, id)`: create (truncate) the file, write the eight
little-endian bytes of `id`, sync. The file is `none` when absent. Returns the file
afterwards and the error. -/
def commit (f : CommitFault) (file : Option Bytes) (id : Nat) : Option Bytes × Option Err :=
  match f with
  | CommitFault.create e => (file, some e)
  | CommitFault.write n e => (some ((putUint64LE id).take n), some e)
  | CommitFault.sync e => (some (putUint64LE id), some e)
  | CommitFault.ok => (some (putUint64LE id), none)

/-- Failures that a call of `load` may meet. -/
structure LoadFaults where
  /-- Failure of `os.Stat` on an existing file (on an absent file it always fails). -/
  statErr : Option Err
  /-- Fault of the `commit` that `load` runs after a failed `os.Stat`. -/
  commitFault : CommitFault
  /-- Failure of `os.Open` on an existing file. -/
  openErr : Option Err
  /-- Failure of the underlying read of an opened file. -/
  readErr : Option Err
deriving DecidableEq, Repr

/-- No failure anywhere in `load`. -/
def LoadFaults.clean : LoadFaults := ⟨none, CommitFault.ok, none, none⟩

/-- Source `load(filename)`. `os.Stat` fails when the file is absent, and on an existing
file when `statErr` says so; on any such failure the result is `0, commit(filename, 0)`,
which truncates and rewrites a file that is there. Otherwise the file is opened and a
`uint64` is read from it. Returns the file afterwards, the identifier and the error. -/
def load (f : LoadFaults) (file : Option Bytes) : Option Bytes × Nat × Option Err :=
  match file with
  | none =>
    let r := commit f.commitFault none 0
    (r.1, 0, r.2)
  | some content =>
    match f.statErr with
    | some _ =>
      let r := commit f.commitFault file 0
      (r.1, 0, r.2)
    | none =>
      match f.openErr with
      | some e => (file, 0, some e)
      | none =>
        match f.readErr with
        | some e => (file, 0, some e)
        | none =>
          match binaryReadUint64 content with
          | (_, some e) => (file, 0, some e)
          | (id, none) => (file, id, none)

/-! ## The storage engine

The engine (`goleveldb`) is an external library; it is modelled by its contract: a
map from byte-string keys to byte-string values, held as a list of records in
ascending key order under the default comparer `bytes.Compare`. -/

/-- Go's `bytes.Compare`: lexicographic comparison of byte strings. -/
def bytesCompare : Bytes → Bytes → Ordering
  | [], [] => Ordering.eq
  | [], _ :: _ => Ordering.lt
  | _ :: _, [] => Ordering.gt
  | a :: as, b :: bs =>
    if a < b then Ordering.lt
    else if b < a then Ordering.gt
    else bytesCompare as bs

/-- The records of an engine instance. -/
abbrev DB := List (Bytes × Bytes)

/-- Well-formed engine content: keys strictly ascending (hence distinct). -/
def DB.WF (db : DB) : Prop := db.Pairwise (fun x y => bytesCompare x.1 y.1 = Ordering.lt)

instance (db : DB) : Decidable db.WF := by unfold DB.WF; infer_instance

/-- The value stored under `k`, if any. -/
def dbLookup : DB → Bytes → Option Bytes
  | [], _ => none
  | (k', v) :: rest, k => if k' = k then some v else dbLookup rest k

/-- Upsert of `(k, v)`, keeping the key order. -/
def dbInsert : DB → Bytes → Bytes → DB
  | [], k, v => [(k, v)]
  | (k', v') :: rest, k, v =>
    match bytesCompare k k' with
    | Ordering.lt => (k, v) :: (k', v') :: rest
    | Ordering.eq => (k, v) :: rest
    | Ordering.gt => (k', v') :: dbInsert rest k v

/-- Removal of the record under `k`; nothing happens when there is none. -/
def dbErase (db : DB) (k : Bytes) : DB := db.filter (fun r => decide (r.1 ≠ k))

/-- Whether key `k` sorts strictly before `start`: `bytes.Compare(k, start) < 0`. -/
def keyBelow (k start : Bytes) : Bool :=
  match bytesCompare k start with
  | Ordering.lt => true
  | _ => false

/-- The records an iterator over `util.Range{Start: start, Limit: nil}` yields: it
seeks to the first key not below `start` and runs to the end. -/
def dbSeek (db : DB) (start : Bytes) : DB :=
  db.dropWhile (fun r => keyBelow r.1 start)

/-- Engine `db.Get(key, nil)`: an engine failure, `leveldb.ErrNotFound` for an absent
key, or the value. -/
def leveldbGet (fault : Option Err) (db : DB) (key : Bytes) : Option Bytes × Option Err :=
  match fault with
  | some e => (none, some e)
  | none =>
    match dbLookup db key with
    | none => (none, some Err.dbNotFound)
    | some v => (some v, none)

/-- Engine `db.Put(key, value, sync)`. -/
def leveldbPut (fault : Option Err) (db : DB) (key value : Bytes) : DB × Option Err :=
  match fault with
  | some e => (db, some e)
  | none => (dbInsert db key value, none)

/-- Engine `db.Delete(key, sync)`: deleting an absent key is not an engine error. -/
def leveldbDelete (fault : Option Err) (db : DB) (key : Bytes) : DB × Option Err :=
  match fault with
  | some e => (db, some e)
  | none => (dbErase db key, none)

/-! ## Routes and Go maps -/

/-- The Route codec (`internal.Route`, its `Read` and `Write`); the package is not part
of the modelled sources, so the codec is a parameter. -/
structure RouteCodec (R : Type) where
  /-- `rt.Read(bytes.NewBuffer(b))` on a fresh Route. -/
  read : Bytes → Except Err R
  /-- `route.Write(&buf)` into an empty buffer. -/
  write : R → Except Err Bytes

/-- A Go `map[string]Route`, as the list of its entries in order of first insertion. -/
abbrev GoMap (R : Type) := List (Bytes × R)

/-- Go map assignment `m[k] = v`. -/
def GoMap.set {R : Type} : GoMap R → Bytes → R → GoMap R
  | [], k, v => [(k, v)]
  | (k', v') :: m, k, v => if k' = k then (k, v) :: m else (k', v') :: GoMap.set m k v

/-- The directory a backend owns. -/
structure Disk where
  /-- The directory exists. -/
  dirExists : Bool
  /-- Content of `routes.db`, when it was ever created. -/
  routesDb : Option DB
  /-- Content of the counter file `id`, when present. -/
  idLog : Option Bytes
deriving DecidableEq, Repr

/-- Source `Backend`: the open engine, the in-memory counter `id`, and the counter
file the backend writes through `commit`. -/
structure Backend where
  /-- Content of the open engine `backend.db`. -/
  db : DB
  /-- Field `backend.id` (a `uint64`). -/
  id : Nat
  /-- Content of the counter file at `path/id`. -/
  idLog : Option Bytes
deriving DecidableEq, Repr

/-- Failures that a call of `New` may meet. -/
structure NewFaults where
  /-- Failure of `os.MkdirAll`. -/
  mkdirErr : Option Err
  /-- Failure of `leveldb.OpenFile`. -/
  openDbErr : Option Err
  /-- Failures inside `load`. -/
  loadFaults : LoadFaults
deriving DecidableEq, Repr

/-- No failure anywhere in `New`. -/
def NewFaults.clean : NewFaults := ⟨none, none, LoadFaults.clean⟩

/-- Source `New(path)`. `os.Stat(path)` fails exactly when the directory is absent.
Returns the directory afterwards, the backend (`none` is the `nil` pointer) and the
error. -/
def New (f : NewFaults) (d : Disk) : Disk × Option Backend × Option Err :=
  match (if d.dirExists then none else f.mkdirErr) with
  | some e => (d, none, some e)
  | none =>
    match f.openDbErr with
    | some e => (⟨true, d.routesDb, d.idLog⟩, none, some e)
    | none =>
      let db := d.routesDb.getD []
      let r := load f.loadFaults d.idLog
      match r.2.2 with
      | some e => (⟨true, some db, r.1⟩, none, some e)
      | none => (⟨true, some db, r.1⟩, some ⟨db, r.2.1, r.1⟩, none)

/-- Source `Backend.Close`: what is left on disk, and the engine's close error. -/
def Backend.Close (fault : Option Err) (b : Backend) : Disk × Option Err :=
  (⟨true, some b.db, b.idLog⟩, fault)

/-- Source `Backend.Get`. -/
def Backend.Get (fault : Option Err) (b : Backend) (name : Bytes) : Option Bytes × Option Err :=
  match leveldbGet fault b.db name with
  | (_, some e) =>
    if e = Err.dbNotFound then (none, some Err.routeNotFound) else (none, some e)
  | (value, none) => (value, none)

/-- Source `Backend.Put`. -/
def Backend.Put (fault : Option Err) (b : Backend) (key buf : Bytes) : Backend × Option Err :=
  let r := leveldbPut fault b.db key buf
  (⟨r.1, b.id, b.idLog⟩, r.2)

/-- Source `Backend.Del`. -/
def Backend.Del (fault : Option Err) (b : Backend) (key : Bytes) : Backend × Option Err :=
  let r := leveldbDelete fault b.db key
  (⟨r.1, b.id, b.idLog⟩, r.2)

/-- The loop of `Backend.List` over the yielded records: decode each value and assign
it in the map; a decoding failure leaves the function at once. -/
def listLoop {R : Type} (c : RouteCodec R) : DB → GoMap R → Except Err (GoMap R)
  | [], golinks => Except.ok golinks
  | (key, val) :: rest, golinks =>
    match c.read val with
    | Except.error e => Except.error e
    | Except.ok rt => listLoop c rest (GoMap.set golinks key rt)

/-- Source `Backend.List`. The iterator fault `some (n, e)` makes the iterator stop after
`n` records with `iter.Error() = e`. -/
def Backend.List {R : Type} (c : RouteCodec R) (fault : Option (Nat × Err)) (b : Backend)
    (start : Bytes) : Option (GoMap R) × Option Err :=
  let range := dbSeek b.db start
  let yielded := match fault with
    | some (n, _) => range.take n
    | none => range
  match listLoop c yielded [] with
  | Except.error e => (none, some e)
  | Except.ok golinks =>
    match fault with
    | some (_, e) => (none, some e)
    | none => (some golinks, none)

/-- Source `Backend.NextID`, the body run under `backend.lck`: increment `backend.id`
(wrapping as `uint64` does), then `commit` it; on a commit error return `0, err`. Returns
the backend afterwards, the identifier and the error. -/
def Backend.NextID (f : CommitFault) (b : Backend) : Backend × Nat × Option Err :=
  let id := (b.id + 1) % uint64Mod
  let r := commit f b.idLog id
  match r.2 with
  | some e => (⟨b.db, id, r.1⟩, 0, some e)
  | none => (⟨b.db, id, r.1⟩, id, none)

/-- Sequential calls of `NextID`, one per listed fault, with every call's result. -/
def nextIDs : List CommitFault → Backend → Backend × List (Nat × Option Err)
  | [], b => (b, [])
  | f :: fs, b =>
    let r := Backend.NextID f b
    let rest := nextIDs fs r.1
    (rest.1, (r.2.1, r.2.2) :: rest.2)

/-! ## The route store (`web/store.go`) -/

/-- Source `store.GetLink`. -/
def store.GetLink {R : Type} (c : RouteCodec R) (fault : Option Err) (s : Backend)
    (key : Bytes) : Option R × Option Err :=
  match Backend.Get fault s key with
  | (_, some e) => (none, some e)
  | (b, none) =>
    match c.read (b.getD []) with
    | Except.error e => (none, some e)
    | Except.ok rt => (some rt, none)

/-- Source `store.GetLinks`. -/
def store.GetLinks {R : Type} (c : RouteCodec R) (fault : Option (Nat × Err)) (s : Backend)
    (start : Bytes) : Option (GoMap R) × Option Err :=
  Backend.List c fault s start

/-- Source `store.UpdateLink`. -/
def store.UpdateLink {R : Type} (c : RouteCodec R) (fault : Option Err) (s : Backend)
    (key : Bytes) (route : R) : Backend × Option Err :=
  match c.write route with
  | Except.error e => (s, some e)
  | Except.ok buf => Backend.Put fault s key buf

/-- Source `store.DeleteLink`. -/
def store.DeleteLink (fault : Option Err) (s : Backend) (key : Bytes) : Backend × Option Err :=
  Backend.Del fault s key

/-- Source `store.NextID`. -/
def store.NextID (f : CommitFault) (s : Backend) : Backend × Nat × Option Err :=
  Backend.NextID f s

/-! ## Concurrent callers of `NextID`

Callers run `Backend.NextID` on one backend under an arbitrary interleaving. A caller's
call is split at its program points; a schedule names, step by step, the caller that moves
next. A caller that cannot move (it waits for `backend.lck`, or has returned) leaves the
state as it is. All counter-file writes succeed. -/

/-- Program points of one call of `Backend.NextID`. -/
inductive PC where
  /-- Before `backend.lck.Lock()`. -/
  | lock
  /-- Holding the lock, before `backend.id++`. -/
  | incr
  /-- Before `commit(..., backend.id)`. -/
  | commit
  /-- Before `return backend.id, nil`: the result is read from `backend.id` here. -/
  | ret
  /-- Before the deferred `backend.lck.Unlock()`. -/
  | unlock
  /-- Returned to the caller. -/
  | done
deriving DecidableEq, Repr

/-- One caller: its program point and the value its call returns, once read. -/
structure Caller where
  /-- Program point. -/
  pc : PC
  /-- Return value of the call. -/
  result : Option Nat
deriving DecidableEq, Repr

/-- The shared backend, the holder of `backend.lck` (a caller index), and the callers. -/
structure Sys where
  /-- The backend all callers share. -/
  backend : Backend
  /-- Holder of the mutex; `none` when unlocked. -/
  lck : Option Nat
  /-- The callers, by index. -/
  callers : List Caller
deriving DecidableEq, Repr

/-- One step of caller `t`. -/
def Sys.step (σ : Sys) (t : Nat) : Sys :=
  match σ.callers[t]? with
  | none => σ
  | some c =>
    match c.pc with
    | PC.lock =>
      match σ.lck with
      | some _ => σ
      | none => ⟨σ.backend, some t, σ.callers.set t ⟨PC.incr, c.result⟩⟩
    | PC.incr =>
      ⟨⟨σ.backend.db, (σ.backend.id + 1) % uint64Mod, σ.backend.idLog⟩, σ.lck,
        σ.callers.set t ⟨PC.commit, c.result⟩⟩
    | PC.commit =>
      ⟨⟨σ.backend.db, σ.backend.id, (commit CommitFault.ok σ.backend.idLog σ.backend.id).1⟩,
        σ.lck, σ.callers.set t ⟨PC.ret, c.result⟩⟩
    | PC.ret => ⟨σ.backend, σ.lck, σ.callers.set t ⟨PC.unlock, some σ.backend.id⟩⟩
    | PC.unlock => ⟨σ.backend, none, σ.callers.set t ⟨PC.done, c.result⟩⟩
    | PC.done => σ

/-- The state reached by a schedule. -/
def Sys.run (sched : List Nat) (σ : Sys) : Sys := sched.foldl Sys.step σ

/-- The state in which `n` callers are about to call `NextID` on backend `b`. -/
def Sys.init (b : Backend) (n : Nat) : Sys := ⟨b, none, List.replicate n ⟨PC.lock, none⟩⟩

/-- The schedule that lets the callers `base, base+1, ..., base+n-1` run one after the
other, five steps each. -/
def seqSchedule : Nat → Nat → List Nat
  | _, 0 => []
  | base, n + 1 => base :: base :: base :: base :: base :: seqSchedule (base + 1) n

/-- The values returned so far, listed by caller index. -/
def Sys.values (σ : Sys) : List Nat := σ.callers.filterMap Caller.result

/-- The number of increments of `backend.id` whose value has not been returned yet: 1
when the lock holder stands between the increment and the read of its result. -/
def Sys.pending (σ : Sys) : Nat :=
  match σ.lck with
  | none => 0
  | some t =>
    match σ.callers[t]? with
    | none => 0
    | some c => if c.pc = PC.commit ∨ c.pc = PC.ret then 1 else 0

/-- The invariant of concurrent allocation from initial counter `s`: a caller has a result
exactly from its read on; a caller inside the critical section is the lock holder, and the
lock holder is inside it; the returned values are, up to order, `s+1, s+2, ...` (as `uint64`); the counter is `s` plus
the number of returned values plus the pending increment. -/
structure Sys.Inv (s : Nat) (σ : Sys) : Prop where
  /-- A caller has no result exactly before its read. -/
  res : ∀ (t : Nat) (c : Caller), σ.callers[t]? = some c →
    (c.result = none ↔ c.pc = PC.lock ∨ c.pc = PC.incr ∨ c.pc = PC.commit ∨ c.pc = PC.ret)
  /-- Mutual exclusion. -/
  excl : ∀ (t : Nat) (c : Caller), σ.callers[t]? = some c → c.pc ≠ PC.lock → c.pc ≠ PC.done →
    σ.lck = some t
  /-- The lock holder is inside the critical section. -/
  held : ∀ (t : Nat), σ.lck = some t →
    ∃ c, σ.callers[t]? = some c ∧ c.pc ≠ PC.lock ∧ c.pc ≠ PC.done
  /-- The returned values. -/
  vals : σ.values.Perm ((List.range σ.values.length).map (fun i => (s + 1 + i) % uint64Mod))
  /-- The counter, as a `uint64`. -/
  ctr : σ.backend.id % uint64Mod = (s + σ.values.length + σ.pending) % uint64Mod
  /-- A pending increment left the counter in `uint64` range. -/
  lt : σ.pending = 1 → σ.backend.id < uint64Mod

/-- A sample codec for concrete evaluation: a Route is its non-empty payload; the empty
byte string neither encodes nor decodes. -/
def payloadCodec : RouteCodec Bytes where
  read b := if b = [] then Except.error (Err.codec 1) else Except.ok b
  write r := if r = [] then Except.error (Err.codec 2) else Except.ok r

/-! ## Sanity checks of the embedding -/

example : putUint64LE 258 = [2, 1, 0, 0, 0, 0, 0, 0] := by decide
example : binaryReadUint64 [2, 1, 0, 0, 0, 0, 0, 0] = (258, none) := by decide
example : (Backend.NextID CommitFault.ok ⟨[], 0, none⟩).2.1 = 1 := by decide
example : (Backend.NextID CommitFault.ok ⟨[], 2 ^ 64 - 1, none⟩).2.1 = 0 := by decide
example : dbSeek [([1], []), ([2], []), ([2, 0], [])] [2] = [([2], []), ([2, 0], [])] := by
  decide
example : dbInsert [([1], [9]), ([3], [9])] [2] [7] = [([1], [9]), ([2], [7]), ([3], [9])] := by
  decide
example : dbInsert [([1], [9]), ([3], [9])] [3] [7] = [([1], [9]), ([3], [7])] := by decide
example : bytesCompare [97, 98] [97, 98, 0] = Ordering.lt := by decide
example : load LoadFaults.clean (some []) = (some [], 0, some Err.eof) := by decide
example : load LoadFaults.clean (some [1, 2]) = (some [1, 2], 0, some Err.unexpectedEOF) := by
  decide
example : load ⟨some (Err.os 5), CommitFault.ok, none, none⟩ (some [1, 2])
    = (some [0, 0, 0, 0, 0, 0, 0, 0], 0, none) := by decide
example : load ⟨some (Err.os 5), CommitFault.create (Err.os 13), none, none⟩ (some [1, 2])
    = (some [1, 2], 0, some (Err.os 13)) := by decide
example : Backend.List payloadCodec none ⟨[([97], [1]), ([98], [])], 0, none⟩ []
    = (none, some (Err.codec 1)) := by decide
example : Backend.List payloadCodec (some (1, Err.os 5)) ⟨[([97], [1]), ([98], [2])], 0, none⟩ []
    = (none, some (Err.os 5)) := by decide
example : store.GetLinks payloadCodec none
    (store.UpdateLink payloadCodec none ⟨[], 0, some (putUint64LE 0)⟩ [97, 98, 99] [120]).1 []
    = (some [([97, 98, 99], [120])], none) := by decide
example : ((Sys.init ⟨[], 10, none⟩ 2).run [0, 1, 0, 1, 0, 0, 0, 1, 1, 1, 1, 1]).callers
    = [⟨PC.done, some 11⟩, ⟨PC.done, some 12⟩] := by decide
example : ((Sys.init ⟨[], 10, none⟩ 2).run [1, 0, 1, 1, 0, 1, 1]).lck = none := by decide

/-! ## Counter encoding lemmas -/

theorem putUint64LE_length (v : Nat) : (putUint64LE v).length = 8 := rfl

theorem uint64LE_putUint64LE (v : Nat) (h : v < uint64Mod) : uint64LE (putUint64LE v) = v := by
  simp only [uint64Mod] at h
  simp only [putUint64LE, uint64LE, byteAt]
  norm_num
  omega

theorem binaryReadUint64_putUint64LE (v : Nat) (h : v < uint64Mod) :
    binaryReadUint64 (putUint64LE v) = (v, none) := by
  have h8 : (putUint64LE v).take 8 = putUint64LE v := rfl
  simp [binaryReadUint64, putUint64LE_length, h8, uint64LE_putUint64LE v h]

theorem commit_ok (file : Option Bytes) (id : Nat) :
    commit CommitFault.ok file id = (some (putUint64LE id), none) := rfl

theorem commit_err_none_iff (f : CommitFault) (file : Option Bytes) (id : Nat) :
    (commit f file id).2 = none ↔ f = CommitFault.ok := by
  cases f <;> simp [commit]

theorem NextID_ok (b : Backend) :
    Backend.NextID CommitFault.ok b =
      (⟨b.db, (b.id + 1) % uint64Mod, some (putUint64LE ((b.id + 1) % uint64Mod))⟩,
        (b.id + 1) % uint64Mod, none) := rfl

theorem NextID_err_none_iff (f : CommitFault) (b : Backend) :
    (Backend.NextID f b).2.2 = none ↔ f = CommitFault.ok := by
  cases f <;> simp [Backend.NextID, commit]

theorem nextIDs_ok_aux (n : Nat) : ∀ b : Backend, b.id + n < uint64Mod →
    (nextIDs (List.replicate n CommitFault.ok) b).2 =
      (List.range n).map (fun i => (b.id + 1 + i, (none : Option Err))) ∧
    (nextIDs (List.replicate n CommitFault.ok) b).1.id = b.id + n := by
  induction n with
  | zero => intro b _; simp [nextIDs]
  | succ n ih =>
    intro b h
    have hlt : b.id + 1 < uint64Mod := by omega
    have hmod : (b.id + 1) % uint64Mod = b.id + 1 := Nat.mod_eq_of_lt hlt
    have hb := ih (Backend.NextID CommitFault.ok b).1 (by rw [NextID_ok]; simp only [hmod]; omega)
    rw [NextID_ok] at hb
    simp only [hmod] at hb
    rw [List.replicate_succ, nextIDs, NextID_ok]
    simp only [hmod]
    refine ⟨?_, ?_⟩
    · rw [hb.1, List.range_succ_eq_map, List.map_cons, List.map_map]
      congr 1
      apply List.map_congr_left
      intro i _
      simp only [Function.comp, Prod.mk.injEq, and_true]
      omega
    · rw [hb.2]; omega

theorem load_existing_counter (lf : LoadFaults) (v : Nat) (h : v < uint64Mod)
    (hst : lf.statErr = none) :
    load lf (some (putUint64LE v)) = (some (putUint64LE v), v, none) ∨
    ∃ e, load lf (some (putUint64LE v)) = (some (putUint64LE v), 0, some e) := by
  simp only [load, hst]
  cases ho : lf.openErr with
  | some e => exact Or.inr ⟨e, rfl⟩
  | none =>
    cases hr : lf.readErr with
    | some e => exact Or.inr ⟨e, rfl⟩
    | none => left; simp only [binaryReadUint64_putUint64LE v h]

theorem load_short (lf : LoadFaults) (content : Bytes) (h : content.length < 8)
    (hst : lf.statErr = none) :
    ∃ e, load lf (some content) = (some content, 0, some e) := by
  simp only [load, hst]
  cases ho : lf.openErr with
  | some e => exact ⟨e, rfl⟩
  | none =>
    cases hr : lf.readErr with
    | some e => exact ⟨e, rfl⟩
    | none =>
      by_cases h0 : content.length = 0
      · exact ⟨Err.eof, by simp [binaryReadUint64, h0]⟩
      · exact ⟨Err.unexpectedEOF, by simp [binaryReadUint64, h0, h]⟩

/-- After a failed `os.Stat` on an existing file, `load` is `0, commit(filename, 0)`. -/
theorem load_stat_error (lf : LoadFaults) (content : Bytes) (e : Err)
    (hst : lf.statErr = some e) :
    load lf (some content) =
      ((commit lf.commitFault (some content) 0).1, 0,
        (commit lf.commitFault (some content) 0).2) := by
  simp only [load, hst]

theorem New_of_load_error (nf : NewFaults) (d : Disk) (file : Option Bytes) (e : Err)
    (h : load nf.loadFaults d.idLog = (file, 0, some e)) :
    (New nf d).2.1 = none ∧ (New nf d).2.2 ≠ none ∧
      ((New nf d).1.idLog = d.idLog ∨ (New nf d).1.idLog = file) := by
  unfold New
  cases hm : (if d.dirExists then none else nf.mkdirErr) with
  | some e1 => simp
  | none =>
    cases hd : nf.openDbErr with
    | some e2 => simp
    | none => simp [h]

/-! ## Identifier allocation -/

/-- C1, as stated, fails. With in-memory counter 5 and a failing `os.Create`, `NextID`
returns `0` and the error, but the in-memory counter is 6 afterwards, not 5, and the
retried call whose write succeeds returns 7, not 6: the increment is done before
`commit` and is not undone on failure. -/
theorem nextID_failed_write_counterexample :
    (Backend.NextID (CommitFault.create (Err.os 13)) ⟨[], 5, some (putUint64LE 5)⟩).2
        = (0, some (Err.os 13)) ∧
    (Backend.NextID (CommitFault.create (Err.os 13)) ⟨[], 5, some (putUint64LE 5)⟩).1.id = 6 ∧
    (Backend.NextID (CommitFault.create (Err.os 13)) ⟨[], 5, some (putUint64LE 5)⟩).1.id ≠ 5 ∧
    (Backend.NextID CommitFault.ok
      (Backend.NextID (CommitFault.create (Err.os 13)) ⟨[], 5, some (putUint64LE 5)⟩).1).2
        = (7, none) := by
  decide

/-- C1, amended. For every backend state with in-memory counter `c`, if the write or sync
of the counter file fails, `NextID` returns `0` with an error and the in-memory counter is
`(c+1) mod 2^64` afterwards, so that an immediately retried `NextID` whose write succeeds
returns `(c+2) mod 2^64`; the failed candidate is skipped. -/
theorem nextID_failed_write_advances (f : CommitFault) (b : Backend)
    (hf : f ≠ CommitFault.ok) :
    (∃ e, (Backend.NextID f b).2 = (0, some e)) ∧
    (Backend.NextID f b).1.id = (b.id + 1) % uint64Mod ∧
    (Backend.NextID f b).1.db = b.db ∧
    (Backend.NextID CommitFault.ok (Backend.NextID f b).1).2
        = ((b.id + 2) % uint64Mod, none) := by
  have hid : (Backend.NextID f b).1.id = (b.id + 1) % uint64Mod := by
    cases f <;> simp [Backend.NextID, commit]
  refine ⟨?_, hid, ?_, ?_⟩
  · cases f with
    | ok => exact absurd rfl hf
    | create e => exact ⟨e, rfl⟩
    | write n e => exact ⟨e, rfl⟩
    | sync e => exact ⟨e, rfl⟩
  · cases f <;> simp [Backend.NextID, commit]
  · rw [NextID_ok, hid]
    simp only [uint64Mod, Prod.mk.injEq, and_true]
    omega

/-- Witness of `nextID_failed_write_advances`: counter 5, `w.Sync` fails. -/
theorem nextID_failed_write_advances_witness :
    (∃ e, (Backend.NextID (CommitFault.sync (Err.os 5)) ⟨[], 5, none⟩).2 = (0, some e)) ∧
    (Backend.NextID (CommitFault.sync (Err.os 5)) ⟨[], 5, none⟩).1.id = (5 + 1) % uint64Mod ∧
    (Backend.NextID (CommitFault.sync (Err.os 5)) ⟨[], 5, none⟩).1.db = [] ∧
    (Backend.NextID CommitFault.ok
      (Backend.NextID (CommitFault.sync (Err.os 5)) ⟨[], 5, none⟩).1).2
        = ((5 + 2) % uint64Mod, none) :=
  nextID_failed_write_advances (CommitFault.sync (Err.os 5)) ⟨[], 5, none⟩ (by decide)

/-- C2. For a backend whose in-memory counter is `s` and every `n` with `s + n` below
`2^64`, `n` sequential `NextID` calls whose counter-file writes all succeed return exactly
`s+1, s+2, ..., s+n` in that order, each with a `nil` error. -/
theorem nextID_sequential (b : Backend) (n : Nat) (h : b.id + n < uint64Mod) :
    (nextIDs (List.replicate n CommitFault.ok) b).2 =
      (List.range n).map (fun i => (b.id + 1 + i, (none : Option Err))) :=
  (nextIDs_ok_aux n b h).1

/-- Witness of `nextID_sequential`: three calls from counter 7 return 8, 9, 10. -/
theorem nextID_sequential_witness :
    (⟨[], 7, none⟩ : Backend).id + 3 < uint64Mod ∧
    (nextIDs (List.replicate 3 CommitFault.ok) ⟨[], 7, none⟩).2 =
      [(8, none), (9, none), (10, none)] :=
  ⟨by decide, nextID_sequential ⟨[], 7, none⟩ 3 (by decide)⟩

/-- C3, as stated, fails in two ways. At the top of the `uint64` range: from in-memory
counter `2^64 - 2`, `NextID` succeeds and returns `v = 2^64 - 1`; after closing and
reopening, the in-memory counter is `v`, and the next successful `NextID` returns 0, which
is not `v + 1` and is not above `v`. And when `os.Stat` of the counter file fails on
reopening: from counter 41, `NextID` returns `v = 42` and the file holds the encoding of
42; `load` then runs `commit(filename, 0)`, the reopened backend has counter 0 and a file
holding the encoding of 0, and the next `NextID` returns 1, not 43. -/
theorem nextID_reopen_wraps_counterexample :
    (Backend.NextID CommitFault.ok ⟨[], 2 ^ 64 - 2, none⟩).2 = (2 ^ 64 - 1, none) ∧
    (New NewFaults.clean
      (Backend.Close none (Backend.NextID CommitFault.ok ⟨[], 2 ^ 64 - 2, none⟩).1).1).2
        = (some ⟨[], 2 ^ 64 - 1, some (putUint64LE (2 ^ 64 - 1))⟩, none) ∧
    (Backend.NextID CommitFault.ok ⟨[], 2 ^ 64 - 1, some (putUint64LE (2 ^ 64 - 1))⟩).2
        = (0, none) ∧
    (Backend.NextID CommitFault.ok ⟨[], 2 ^ 64 - 1, some (putUint64LE (2 ^ 64 - 1))⟩).2.1
        ≠ (2 ^ 64 - 1) + 1 ∧
    (Backend.NextID CommitFault.ok ⟨[], 41, none⟩).2 = (42, none) ∧
    (Backend.NextID CommitFault.ok ⟨[], 41, none⟩).1.idLog = some (putUint64LE 42) ∧
    (New ⟨none, none, ⟨some (Err.os 5), CommitFault.ok, none, none⟩⟩
      (Backend.Close none (Backend.NextID CommitFault.ok ⟨[], 41, none⟩).1).1).2
        = (some ⟨[], 0, some (putUint64LE 0)⟩, none) ∧
    (Backend.NextID CommitFault.ok ⟨[], 0, some (putUint64LE 0)⟩).2 = (1, none) := by
  decide

/-- C3, amended. If `NextID` succeeds and returns `v`, the counter file then holds exactly
the 8-byte little-endian encoding of `v`; closing and reopening the backend on the same
directory succeeds when nothing fails, and every backend reopened with `os.Stat` of the
counter file succeeding, whatever else fails or not, has in-memory counter `v` and the
same records, so its next successful `NextID` returns `(v+1) mod 2^64`, which is `v+1`
whenever `v < 2^64 - 1`. Nothing is said about a reopening in which that `os.Stat`
fails. -/
theorem nextID_persisted_reopen (f : CommitFault) (cf : Option Err) (b : Backend)
    (hs : (Backend.NextID f b).2.2 = none) :
    (Backend.NextID f b).1.idLog = some (putUint64LE (Backend.NextID f b).2.1) ∧
    (∃ b', (New NewFaults.clean (Backend.Close cf (Backend.NextID f b).1).1).2
        = (some b', none)) ∧
    (∀ nf b', nf.loadFaults.statErr = none →
      (New nf (Backend.Close cf (Backend.NextID f b).1).1).2.1 = some b' →
      b'.id = (Backend.NextID f b).2.1 ∧ b'.db = b.db ∧
      (Backend.NextID CommitFault.ok b').2
        = (((Backend.NextID f b).2.1 + 1) % uint64Mod, none) ∧
      ((Backend.NextID f b).2.1 + 1 < uint64Mod →
        (Backend.NextID CommitFault.ok b').2 = ((Backend.NextID f b).2.1 + 1, none))) := by
  have hf : f = CommitFault.ok := (NextID_err_none_iff f b).mp hs
  subst hf
  have hv : (b.id + 1) % uint64Mod < uint64Mod := Nat.mod_lt _ (by decide)
  rw [NextID_ok]
  refine ⟨rfl, ?_, ?_⟩
  · refine ⟨⟨b.db, (b.id + 1) % uint64Mod, some (putUint64LE ((b.id + 1) % uint64Mod))⟩, ?_⟩
    simp [New, Backend.Close, NewFaults.clean, LoadFaults.clean, load,
      binaryReadUint64_putUint64LE _ hv]
  · intro nf b' hst hb'
    have hb : b' = ⟨b.db, (b.id + 1) % uint64Mod,
        some (putUint64LE ((b.id + 1) % uint64Mod))⟩ := by
      simp only [New, Backend.Close] at hb'
      cases hd : nf.openDbErr with
      | some e => simp [hd] at hb'
      | none =>
        rcases load_existing_counter nf.loadFaults _ hv hst with hl | ⟨e, hl⟩
        · simp [hd, hl] at hb'
          exact hb'.symm
        · simp [hd, hl] at hb'
    subst hb
    refine ⟨rfl, rfl, rfl, ?_⟩
    intro hlt
    rw [NextID_ok]
    simp only [Nat.mod_eq_of_lt hlt]

/-- Witness of `nextID_persisted_reopen`: a successful `NextID` from counter 41 returns
42; the backend reopened without any failure has counter 42 and next returns 43. -/
theorem nextID_persisted_reopen_witness :
    (Backend.NextID CommitFault.ok ⟨[], 41, none⟩).2.2 = none ∧
    (Backend.NextID CommitFault.ok ⟨[], 41, none⟩).1.idLog = some (putUint64LE 42) ∧
    (∃ b', (New NewFaults.clean
        (Backend.Close none (Backend.NextID CommitFault.ok ⟨[], 41, none⟩).1).1).2
          = (some b', none)) ∧
    NewFaults.clean.loadFaults.statErr = none ∧
    (New NewFaults.clean
        (Backend.Close none (Backend.NextID CommitFault.ok ⟨[], 41, none⟩).1).1).2.1
          = some ⟨[], 42, some (putUint64LE 42)⟩ ∧
    (Backend.NextID CommitFault.ok ⟨[], 42, some (putUint64LE 42)⟩).2
      = ((Backend.NextID CommitFault.ok ⟨[], 41, none⟩).2.1 + 1, none) :=
  ⟨rfl, (nextID_persisted_reopen CommitFault.ok none ⟨[], 41, none⟩ rfl).1,
    (nextID_persisted_reopen CommitFault.ok none ⟨[], 41, none⟩ rfl).2.1,
    rfl, by decide,
    ((nextID_persisted_reopen CommitFault.ok none ⟨[], 41, none⟩ rfl).2.2
      NewFaults.clean ⟨[], 42, some (putUint64LE 42)⟩ rfl (by decide)).2.2.2 (by decide)⟩

/-! ## Construction and recovery -/

/-- C4, as stated, fails in two ways. A counter file that carries extra bytes: a 9-byte
file is not exactly 8 bytes, yet `load` returns the value 1 of its first eight bytes
without an error and `New` succeeds with in-memory counter 1. And a truncated file on
which `os.Stat` fails: `load` runs `commit(filename, 0)`, which rewrites the 3-byte file to
the encoding of 0, and returns 0 without an error; `New` succeeds with in-memory
counter 0. -/
theorem load_extra_bytes_counterexample :
    load LoadFaults.clean (some [1, 0, 0, 0, 0, 0, 0, 0, 7])
        = (some [1, 0, 0, 0, 0, 0, 0, 0, 7], 1, none) ∧
    (New NewFaults.clean ⟨true, some [], some [1, 0, 0, 0, 0, 0, 0, 0, 7]⟩).2
        = (some ⟨[], 1, some [1, 0, 0, 0, 0, 0, 0, 0, 7]⟩, none) ∧
    load ⟨some (Err.os 5), CommitFault.ok, none, none⟩ (some [1, 2, 3])
        = (some (putUint64LE 0), 0, none) ∧
    (New ⟨none, none, ⟨some (Err.os 5), CommitFault.ok, none, none⟩⟩
      ⟨true, some [], some [1, 2, 3]⟩).2
        = (some ⟨[], 0, some (putUint64LE 0)⟩, none) := by
  decide

/-- C4, amended. For every existing counter file shorter than 8 bytes (empty or
truncated) on which `os.Stat` succeeds, `load` returns an error (`io.EOF` for the empty
file, `io.ErrUnexpectedEOF` otherwise, when the file can be opened and read) and leaves
the file as it is, and `New` returns no backend, an error, and the file untouched. A file
of 8 or more bytes is accepted: `load` returns the little-endian value of its first 8
bytes. Nothing is said about a file on which `os.Stat` fails. -/
theorem load_short_file_fails (content : Bytes) :
    (content.length < 8 →
      (∀ lf : LoadFaults, lf.statErr = none →
        ∃ e, load lf (some content) = (some content, 0, some e)) ∧
      (load LoadFaults.clean (some content)).2.2
        = some (if content = [] then Err.eof else Err.unexpectedEOF) ∧
      (∀ (nf : NewFaults) (d : Disk), nf.loadFaults.statErr = none → d.idLog = some content →
        (New nf d).2.1 = none ∧ (New nf d).2.2 ≠ none ∧ (New nf d).1.idLog = some content)) ∧
    (8 ≤ content.length →
      load LoadFaults.clean (some content)
        = (some content, uint64LE (content.take 8), none)) := by
  constructor
  · intro h
    refine ⟨fun lf hst => load_short lf content h hst, ?_, ?_⟩
    · cases content with
      | nil => rfl
      | cons a as =>
        have h1 : as.length + 1 < 8 := h
        simp [load, LoadFaults.clean, binaryReadUint64, h1]
    · intro nf d hst hd
      obtain ⟨e, he⟩ := load_short nf.loadFaults content h hst
      rw [← hd] at he
      have hn := New_of_load_error nf d _ e he
      refine ⟨hn.1, hn.2.1, ?_⟩
      rcases hn.2.2 with h1 | h1 <;> rw [h1] <;> exact hd
  · intro h
    have h0 : ¬ content.length = 0 := by omega
    have h8 : ¬ content.length < 8 := by omega
    simp [load, LoadFaults.clean, binaryReadUint64, h0, h8]

/-- Witness of `load_short_file_fails`: a 3-byte file is rejected by `load` and by `New`
and stays as it is; an 8-byte file is read. -/
theorem load_short_file_fails_witness :
    LoadFaults.clean.statErr = none ∧
    (∃ e, load LoadFaults.clean (some [1, 2, 3]) = (some [1, 2, 3], 0, some e)) ∧
    ((New NewFaults.clean ⟨true, some [], some [1, 2, 3]⟩).2.1 = none ∧
      (New NewFaults.clean ⟨true, some [], some [1, 2, 3]⟩).2.2 ≠ none ∧
      (New NewFaults.clean ⟨true, some [], some [1, 2, 3]⟩).1.idLog = some [1, 2, 3]) ∧
    load LoadFaults.clean (some [2, 1, 0, 0, 0, 0, 0, 0])
      = (some [2, 1, 0, 0, 0, 0, 0, 0], uint64LE [2, 1, 0, 0, 0, 0, 0, 0], none) :=
  ⟨rfl, ((load_short_file_fails [1, 2, 3]).1 (by decide)).1 LoadFaults.clean rfl,
    ((load_short_file_fails [1, 2, 3]).1 (by decide)).2.2 NewFaults.clean
      ⟨true, some [], some [1, 2, 3]⟩ rfl rfl,
    (load_short_file_fails [2, 1, 0, 0, 0, 0, 0, 0]).2 (by decide)⟩

/-- C5. On a fresh store (counter file absent) where the directory and the engine can be
set up: if the initial `commit` succeeds, construction returns a backend with in-memory
counter 0 and leaves a counter file holding the 8-byte little-endian encoding of 0, and
the first `NextID` returns 1 and the second 2; if creating the file fails (or the write or
sync does), construction fails with that error and returns no backend. -/
theorem new_fresh_store (nf : NewFaults) (d : Disk) (hfresh : d.idLog = none)
    (hmk : d.dirExists = false → nf.mkdirErr = none) (hdb : nf.openDbErr = none) :
    (nf.loadFaults.commitFault = CommitFault.ok →
      ∃ b, New nf d = (⟨true, some (d.routesDb.getD []), some (putUint64LE 0)⟩, some b, none) ∧
        b.id = 0 ∧ b.idLog = some (putUint64LE 0) ∧
        (nextIDs [CommitFault.ok, CommitFault.ok] b).2 = [(1, none), (2, none)]) ∧
    (∀ e, nf.loadFaults.commitFault = CommitFault.create e →
      (New nf d).2 = (none, some e) ∧ (New nf d).1.idLog = none) ∧
    (nf.loadFaults.commitFault ≠ CommitFault.ok →
      (New nf d).2.1 = none ∧ (New nf d).2.2 ≠ none) := by
  have hm : (if d.dirExists then none else nf.mkdirErr) = none := by
    cases hx : d.dirExists with
    | true => simp
    | false => simp [hmk hx]
  refine ⟨?_, ?_, ?_⟩
  · intro hc
    refine ⟨⟨d.routesDb.getD [], 0, some (putUint64LE 0)⟩, ?_, rfl, rfl, ?_⟩
    · simp [New, hm, hdb, hfresh, load, hc, commit]
    · simp [nextIDs, NextID_ok, uint64Mod]
  · intro e hc
    simp [New, hm, hdb, hfresh, load, hc, commit]
  · intro hc
    cases hf : nf.loadFaults.commitFault with
    | ok => exact absurd hf hc
    | create e => simp [New, hm, hdb, hfresh, load, hf, commit]
    | write n e => simp [New, hm, hdb, hfresh, load, hf, commit]
    | sync e => simp [New, hm, hdb, hfresh, load, hf, commit]

/-- Witness of `new_fresh_store`: an absent directory, nothing fails. -/
theorem new_fresh_store_witness :
    ∃ b, New NewFaults.clean ⟨false, none, none⟩
        = (⟨true, some [], some (putUint64LE 0)⟩, some b, none) ∧
      b.id = 0 ∧ b.idLog = some (putUint64LE 0) ∧
      (nextIDs [CommitFault.ok, CommitFault.ok] b).2 = [(1, none), (2, none)] :=
  (new_fresh_store NewFaults.clean ⟨false, none, none⟩ rfl (fun _ => rfl) rfl).1 rfl

/-! ## Key order lemmas -/

theorem bytesCompare_cons (a b : Byte) (as bs : Bytes) :
    bytesCompare (a :: as) (b :: bs) =
      if a < b then Ordering.lt else if b < a then Ordering.gt else bytesCompare as bs := by
  simp only [bytesCompare]

theorem bytesCompare_eq_iff : ∀ a b : Bytes, bytesCompare a b = Ordering.eq ↔ a = b
  | [], [] => by simp [bytesCompare]
  | [], _ :: _ => by simp [bytesCompare]
  | _ :: _, [] => by simp [bytesCompare]
  | a :: as, b :: bs => by
    rw [bytesCompare_cons]
    have ih := bytesCompare_eq_iff as bs
    rcases lt_trichotomy a b with h | h | h
    · simp [h, ne_of_lt h]
    · subst h; simp [ih]
    · simp [h, not_lt_of_gt h, ne_of_gt h]

theorem bytesCompare_refl (a : Bytes) : bytesCompare a a = Ordering.eq :=
  (bytesCompare_eq_iff a a).mpr rfl

theorem bytesCompare_gt_iff : ∀ a b : Bytes,
    bytesCompare a b = Ordering.gt ↔ bytesCompare b a = Ordering.lt
  | [], [] => by simp [bytesCompare]
  | [], _ :: _ => by simp [bytesCompare]
  | _ :: _, [] => by simp [bytesCompare]
  | a :: as, b :: bs => by
    rw [bytesCompare_cons, bytesCompare_cons]
    have ih := bytesCompare_gt_iff as bs
    rcases lt_trichotomy a b with h | h | h
    · simp [h, not_lt_of_gt h]
    · subst h; simp [ih]
    · simp [h, not_lt_of_gt h]

theorem bytesCompare_lt_trans : ∀ a b c : Bytes,
    bytesCompare a b = Ordering.lt → bytesCompare b c = Ordering.lt →
    bytesCompare a c = Ordering.lt
  | [], [], _ => by simp [bytesCompare]
  | [], _ :: _, [] => by simp [bytesCompare]
  | [], _ :: _, _ :: _ => by simp [bytesCompare]
  | _ :: _, [], _ => by simp [bytesCompare]
  | _ :: _, _ :: _, [] => by simp [bytesCompare]
  | a :: as, b :: bs, c :: cs => by
    rw [bytesCompare_cons, bytesCompare_cons, bytesCompare_cons]
    have ih := bytesCompare_lt_trans as bs cs
    intro h1 h2
    rcases lt_trichotomy a b with hab | hab | hab
    · rcases lt_trichotomy b c with hbc | hbc | hbc
      · simp [lt_trans hab hbc]
      · subst hbc; simp [hab]
      · simp [hbc, not_lt_of_gt hbc] at h2
    · subst hab
      rcases lt_trichotomy a c with hbc | hbc | hbc
      · simp [hbc]
      · subst hbc
        simp only [lt_self_iff_false, if_false] at h1 h2 ⊢
        exact ih h1 h2
      · simp [hbc, not_lt_of_gt hbc] at h2
    · simp [hab, not_lt_of_gt hab] at h1

theorem dbLookup_dbInsert_self : ∀ (db : DB) (k v : Bytes),
    dbLookup (dbInsert db k v) k = some v
  | [], k, v => by simp [dbInsert, dbLookup]
  | (k', v') :: rest, k, v => by
    have ih := dbLookup_dbInsert_self rest k v
    unfold dbInsert
    cases h : bytesCompare k k' with
    | lt => simp [dbLookup]
    | eq => simp [dbLookup]
    | gt =>
      have hne : k' ≠ k := by
        intro hk
        subst hk
        rw [bytesCompare_refl] at h
        exact Ordering.noConfusion h
      simp [dbLookup, hne, ih]

theorem dbLookup_dbInsert_ne : ∀ (db : DB) (k v k' : Bytes), k' ≠ k →
    dbLookup (dbInsert db k v) k' = dbLookup db k'
  | [], k, v, k', hne => by simp [dbInsert, dbLookup, Ne.symm hne]
  | (a, w) :: rest, k, v, k', hne => by
    have ih := dbLookup_dbInsert_ne rest k v k' hne
    unfold dbInsert
    cases h : bytesCompare k a with
    | lt => simp [dbLookup, Ne.symm hne]
    | eq =>
      have hka : k = a := (bytesCompare_eq_iff k a).mp h
      subst hka
      simp [dbLookup, Ne.symm hne]
    | gt =>
      by_cases hak : a = k'
      · simp [dbLookup, hak]
      · simp [dbLookup, hak, ih]

theorem dbErase_cons_self (w : Bytes) (rest : DB) (k : Bytes) :
    dbErase ((k, w) :: rest) k = dbErase rest k := by
  simp [dbErase]

theorem dbErase_cons_ne (a w : Bytes) (rest : DB) (k : Bytes) (h : a ≠ k) :
    dbErase ((a, w) :: rest) k = (a, w) :: dbErase rest k := by
  simp [dbErase, h]

theorem dbLookup_dbErase_self : ∀ (db : DB) (k : Bytes), dbLookup (dbErase db k) k = none
  | [], k => by simp [dbErase, dbLookup]
  | (a, w) :: rest, k => by
    have ih := dbLookup_dbErase_self rest k
    by_cases hak : a = k
    · subst hak; rw [dbErase_cons_self]; exact ih
    · rw [dbErase_cons_ne a w rest k hak]; simp [dbLookup, hak, ih]

theorem dbLookup_dbErase_ne : ∀ (db : DB) (k k' : Bytes), k' ≠ k →
    dbLookup (dbErase db k) k' = dbLookup db k'
  | [], k, k', _ => by simp [dbErase, dbLookup]
  | (a, w) :: rest, k, k', hne => by
    have ih := dbLookup_dbErase_ne rest k k' hne
    by_cases hak : a = k
    · subst hak
      rw [dbErase_cons_self]
      simp [dbLookup, Ne.symm hne, ih]
    · rw [dbErase_cons_ne a w rest k hak]
      by_cases hak' : a = k'
      · simp [dbLookup, hak']
      · simp [dbLookup, hak', ih]

theorem dbErase_idem (db : DB) (k : Bytes) : dbErase (dbErase db k) k = dbErase db k := by
  simp [dbErase, List.filter_filter]

theorem dbErase_of_lookup_none : ∀ (db : DB) (k : Bytes), dbLookup db k = none →
    dbErase db k = db
  | [], _, _ => rfl
  | (a, w) :: rest, k, h => by
    by_cases hak : a = k
    · simp [dbLookup, hak] at h
    · simp only [dbLookup, hak, if_false] at h
      rw [dbErase_cons_ne a w rest k hak, dbErase_of_lookup_none rest k h]

theorem dbInsert_mem : ∀ (db : DB) (k v : Bytes) (x : Bytes × Bytes),
    x ∈ dbInsert db k v → x = (k, v) ∨ x ∈ db
  | [], k, v, x, h => by
    simp only [dbInsert, List.mem_singleton] at h
    exact Or.inl h
  | (a, w) :: rest, k, v, x, h => by
    unfold dbInsert at h
    cases hc : bytesCompare k a with
    | lt =>
      simp only [hc, List.mem_cons] at h
      rcases h with h | h | h
      · exact Or.inl h
      · exact Or.inr (by simp [h])
      · exact Or.inr (by simp [h])
    | eq =>
      simp only [hc, List.mem_cons] at h
      rcases h with h | h
      · exact Or.inl h
      · exact Or.inr (by simp [h])
    | gt =>
      simp only [hc, List.mem_cons] at h
      rcases h with h | h
      · exact Or.inr (by simp [h])
      · rcases dbInsert_mem rest k v x h with h1 | h1
        · exact Or.inl h1
        · exact Or.inr (by simp [h1])

theorem DB.WF_nil : DB.WF [] := List.Pairwise.nil

theorem DB.WF_cons (a : Bytes × Bytes) (rest : DB) :
    DB.WF (a :: rest) ↔ (∀ x ∈ rest, bytesCompare a.1 x.1 = Ordering.lt) ∧ DB.WF rest := by
  unfold DB.WF
  exact List.pairwise_cons

theorem dbInsert_WF : ∀ (db : DB) (k v : Bytes), db.WF → (dbInsert db k v).WF
  | [], k, v, _ => by
    unfold dbInsert
    rw [DB.WF_cons]
    exact ⟨by simp, DB.WF_nil⟩
  | (a, w) :: rest, k, v, h => by
    have hh := (DB.WF_cons (a, w) rest).mp h
    unfold dbInsert
    cases hc : bytesCompare k a with
    | lt =>
      show DB.WF ((k, v) :: (a, w) :: rest)
      rw [DB.WF_cons]
      refine ⟨?_, h⟩
      intro x hx
      rcases List.mem_cons.mp hx with hx | hx
      · rw [hx]; exact hc
      · exact bytesCompare_lt_trans _ _ _ hc (hh.1 x hx)
    | eq =>
      have hka : k = a := (bytesCompare_eq_iff k a).mp hc
      show DB.WF ((k, v) :: rest)
      rw [DB.WF_cons]
      refine ⟨?_, hh.2⟩
      intro x hx
      rw [hka]
      exact hh.1 x hx
    | gt =>
      show DB.WF ((a, w) :: dbInsert rest k v)
      rw [DB.WF_cons]
      refine ⟨?_, dbInsert_WF rest k v hh.2⟩
      intro x hx
      rcases dbInsert_mem rest k v x hx with hx | hx
      · rw [hx]; exact (bytesCompare_gt_iff k a).mp hc
      · exact hh.1 x hx

theorem dbErase_WF (db : DB) (k : Bytes) (h : db.WF) : (dbErase db k).WF := by
  unfold DB.WF dbErase at *
  exact List.Pairwise.sublist (List.filter_sublist db) h

theorem keyBelow_iff (k p : Bytes) : keyBelow k p = true ↔ bytesCompare k p = Ordering.lt := by
  unfold keyBelow
  cases bytesCompare k p <;> simp

theorem keyBelow_trans (a b p : Bytes) (hab : bytesCompare a b = Ordering.lt)
    (hb : keyBelow b p = true) : keyBelow a p = true :=
  (keyBelow_iff a p).mpr (bytesCompare_lt_trans a b p hab ((keyBelow_iff b p).mp hb))

theorem dbSeek_cons_below (a : Bytes × Bytes) (rest : DB) (p : Bytes)
    (h : keyBelow a.1 p = true) : dbSeek (a :: rest) p = dbSeek rest p := by
  simp [dbSeek, List.dropWhile_cons, h]

theorem dbSeek_cons_not_below (a : Bytes × Bytes) (rest : DB) (p : Bytes)
    (h : keyBelow a.1 p = false) : dbSeek (a :: rest) p = a :: rest := by
  simp [dbSeek, List.dropWhile_cons, h]

/-- On well-formed content the iterator range is exactly the records whose key is not
below the start bound. -/
theorem dbSeek_eq_filter : ∀ (db : DB) (p : Bytes), db.WF →
    dbSeek db p = db.filter (fun r => !keyBelow r.1 p)
  | [], _, _ => rfl
  | a :: rest, p, h => by
    have hh := (DB.WF_cons a rest).mp h
    cases hc : keyBelow a.1 p with
    | true =>
      rw [dbSeek_cons_below a rest p hc, dbSeek_eq_filter rest p hh.2]
      simp [List.filter_cons, hc]
    | false =>
      rw [dbSeek_cons_not_below a rest p hc]
      have hall : rest.filter (fun r => !keyBelow r.1 p) = rest := by
        rw [List.filter_eq_self]
        intro x hx
        cases hx' : keyBelow x.1 p with
        | false => rfl
        | true =>
          have := keyBelow_trans a.1 x.1 p (hh.1 x hx) hx'
          rw [hc] at this
          exact Bool.noConfusion this
      simp [List.filter_cons, hc, hall]

theorem listLoop_error {R : Type} (c : RouteCodec R) :
    ∀ (l : DB) (acc : GoMap R), (∃ r ∈ l, ∃ e, c.read r.2 = Except.error e) →
      ∃ e, listLoop c l acc = Except.error e
  | [], _, h => by
    obtain ⟨r, hr, _⟩ := h
    simp at hr
  | (k, v) :: rest, acc, h => by
    cases hkv : c.read v with
    | error e => exact ⟨e, by simp [listLoop, hkv]⟩
    | ok rt =>
      obtain ⟨r, hr, e, he⟩ := h
      rcases List.mem_cons.mp hr with hr | hr
      · rw [hr] at he
        rw [hkv] at he
        exact Except.noConfusion he
      · obtain ⟨e', he'⟩ := listLoop_error c rest (GoMap.set acc k rt) ⟨r, hr, e, he⟩
        exact ⟨e', by simp [listLoop, hkv, he']⟩

/-- C6. For every key `k` and Route `r` whose encoding succeeds with bytes that decode
back to `r`, a successful `UpdateLink(k, r)` followed by `GetLink(k)` (the engine read not
failing) returns `r` and no error; under every other key both `Get` and `GetLink` answer as
before the update. -/
theorem updateLink_getLink_roundtrip {R : Type} (c : RouteCodec R) (s : Backend)
    (k : Bytes) (r : R) (buf : Bytes) (pf : Option Err)
    (henc : c.write r = Except.ok buf) (hdec : c.read buf = Except.ok r)
    (hput : (store.UpdateLink c pf s k r).2 = none) :
    store.GetLink c none (store.UpdateLink c pf s k r).1 k = (some r, none) ∧
    (∀ k' gf, k' ≠ k →
      Backend.Get gf (store.UpdateLink c pf s k r).1 k' = Backend.Get gf s k' ∧
      store.GetLink c gf (store.UpdateLink c pf s k r).1 k' = store.GetLink c gf s k') := by
  have hpf : pf = none := by
    cases pf with
    | none => rfl
    | some e => simp [store.UpdateLink, henc, Backend.Put, leveldbPut] at hput
  subst hpf
  have hs : (store.UpdateLink c none s k r).1 = ⟨dbInsert s.db k buf, s.id, s.idLog⟩ := by
    simp [store.UpdateLink, henc, Backend.Put, leveldbPut]
  rw [hs]
  constructor
  · simp [store.GetLink, Backend.Get, leveldbGet, dbLookup_dbInsert_self, hdec]
  · intro k' gf hne
    have hget : Backend.Get gf ⟨dbInsert s.db k buf, s.id, s.idLog⟩ k' = Backend.Get gf s k' := by
      simp [Backend.Get, leveldbGet, dbLookup_dbInsert_ne s.db k buf k' hne]
    exact ⟨hget, by simp [store.GetLink, hget]⟩

/-- Witness of `updateLink_getLink_roundtrip`: key `"a"`, payload `[7]`, on an empty
store. -/
theorem updateLink_getLink_roundtrip_witness :
    store.GetLink payloadCodec none
      (store.UpdateLink payloadCodec none ⟨[], 0, none⟩ [97] [7]).1 [97] = (some [7], none) :=
  (updateLink_getLink_roundtrip payloadCodec ⟨[], 0, none⟩ [97] [7] [7] none
    rfl rfl (by decide)).1

/-- C7. For every store state and key `k`, present or not, a successful `DeleteLink(k)`
followed by `GetLink(k)` returns the `RouteNotFound` error and no Route, and a second
`DeleteLink(k)` returns no error and leaves the store as it is. -/
theorem deleteLink_getLink_notFound {R : Type} (c : RouteCodec R) (s : Backend)
    (k : Bytes) (df : Option Err) (hdel : (store.DeleteLink df s k).2 = none) :
    store.GetLink c none (store.DeleteLink df s k).1 k = (none, some Err.routeNotFound) ∧
    store.DeleteLink none (store.DeleteLink df s k).1 k
      = ((store.DeleteLink df s k).1, none) := by
  have hdf : df = none := by
    cases df with
    | none => rfl
    | some e => simp [store.DeleteLink, Backend.Del, leveldbDelete] at hdel
  subst hdf
  constructor
  · simp [store.GetLink, store.DeleteLink, Backend.Del, leveldbDelete, Backend.Get, leveldbGet,
      dbLookup_dbErase_self]
  · simp [store.DeleteLink, Backend.Del, leveldbDelete, dbErase_idem]

/-- Witness of `deleteLink_getLink_notFound`: deleting the present key `"a"`. -/
theorem deleteLink_getLink_notFound_witness :
    store.GetLink payloadCodec none
      (store.DeleteLink none ⟨[([97], [7]), ([98], [8])], 0, none⟩ [97]).1 [97]
        = (none, some Err.routeNotFound) ∧
    store.DeleteLink none
      (store.DeleteLink none ⟨[([97], [7]), ([98], [8])], 0, none⟩ [97]).1 [97]
        = ((store.DeleteLink none ⟨[([97], [7]), ([98], [8])], 0, none⟩ [97]).1, none) :=
  deleteLink_getLink_notFound payloadCodec ⟨[([97], [7]), ([98], [8])], 0, none⟩ [97] none
    (by decide)

/-! ## Range listing -/

/-- C9. For every well-formed store state and start bound `p`, if a stored record with key
not below `p` fails to decode, `List(p)` and `GetLinks(p)` return an error together with
the `nil` map, whatever the iterator does; and the outcome of `List(p)` depends only on
the records with key not below `p`. -/
theorem list_decode_failure {R : Type} (c : RouteCodec R) (b : Backend) (p : Bytes)
    (fault : Option (Nat × Err)) (hwf : b.db.WF)
    (hbad : ∃ rec ∈ b.db, keyBelow rec.1 p = false ∧ ∃ e, c.read rec.2 = Except.error e) :
    (∃ e, Backend.List c fault b p = (none, some e)) ∧
    (∃ e, store.GetLinks c fault b p = (none, some e)) ∧
    (∀ b' : Backend, b'.db.WF →
      b'.db.filter (fun rec => !keyBelow rec.1 p) = b.db.filter (fun rec => !keyBelow rec.1 p) →
      Backend.List c fault b' p = Backend.List c fault b p) := by
  have hfail : ∃ e, Backend.List c fault b p = (none, some e) := by
    cases fault with
    | none =>
      obtain ⟨rec, hmem, hkey, e, he⟩ := hbad
      have hin : rec ∈ dbSeek b.db p := by
        rw [dbSeek_eq_filter b.db p hwf, List.mem_filter]
        exact ⟨hmem, by simp [hkey]⟩
      obtain ⟨e', he'⟩ := listLoop_error c (dbSeek b.db p) [] ⟨rec, hin, e, he⟩
      exact ⟨e', by simp [Backend.List, he']⟩
    | some ne =>
      obtain ⟨n, e0⟩ := ne
      cases hl : listLoop c ((dbSeek b.db p).take n) [] with
      | error e => exact ⟨e, by simp [Backend.List, hl]⟩
      | ok m => exact ⟨e0, by simp [Backend.List, hl]⟩
  refine ⟨hfail, hfail, ?_⟩
  intro b' hwf' heq
  simp only [Backend.List, dbSeek_eq_filter b'.db p hwf', dbSeek_eq_filter b.db p hwf, heq]

/-- Witness of `list_decode_failure`: the record under `"b"` holds an undecodable value;
the start bound is `"a"`. -/
theorem list_decode_failure_witness :
    ∃ e, Backend.List payloadCodec none ⟨[([97], [1]), ([98], []), ([99], [3])], 0, none⟩ [97]
      = (none, some e) :=
  (list_decode_failure payloadCodec ⟨[([97], [1]), ([98], []), ([99], [3])], 0, none⟩ [97] none
    (by decide) ⟨([98], []), by decide, by decide, Err.codec 1, rfl⟩).1

/-! ## Concurrent allocation -/

theorem filterMap_set_same (cs : List Caller) : ∀ (t : Nat) (c c' : Caller),
    cs[t]? = some c → c'.result = c.result →
    (cs.set t c').filterMap Caller.result = cs.filterMap Caller.result := by
  induction cs with
  | nil => intro t c c' h _; simp at h
  | cons a as ih =>
    intro t c c' h hr
    cases t with
    | zero =>
      simp only [List.getElem?_cons_zero, Option.some.injEq] at h
      subst h
      simp [List.filterMap_cons, hr]
    | succ t =>
      simp only [List.getElem?_cons_succ] at h
      simp [List.filterMap_cons, ih t c c' h hr]

theorem filterMap_set_new (cs : List Caller) : ∀ (t : Nat) (c c' : Caller) (v : Nat),
    cs[t]? = some c → c.result = none → c'.result = some v →
    ((cs.set t c').filterMap Caller.result).Perm (v :: cs.filterMap Caller.result) := by
  induction cs with
  | nil => intro t c c' v h _ _; simp at h
  | cons a as ih =>
    intro t c c' v h hn hr
    cases t with
    | zero =>
      simp only [List.getElem?_cons_zero, Option.some.injEq] at h
      subst h
      simp [List.filterMap_cons, hr, hn]
    | succ t =>
      simp only [List.getElem?_cons_succ] at h
      have ih' := ih t c c' v h hn hr
      simp only [List.set_cons_succ, List.filterMap_cons]
      cases a.result with
      | none => exact ih'
      | some w => exact (List.Perm.cons w ih').trans (List.Perm.swap v w _)

theorem getElem?_set_callers (cs : List Caller) (t j : Nat) (c c' : Caller)
    (h : cs[t]? = some c) :
    (cs.set t c')[j]? = if t = j then some c' else cs[j]? := by
  have hlt : t < cs.length := by
    rcases List.getElem?_eq_some.mp h with ⟨hlt, _⟩
    exact hlt
  rw [List.getElem?_set]
  simp [hlt]

theorem Sys.res_update (s : Nat) (σ : Sys) (h : σ.Inv s) (t : Nat) (c c' : Caller)
    (hc : σ.callers[t]? = some c)
    (hres : c'.result = none ↔
      c'.pc = PC.lock ∨ c'.pc = PC.incr ∨ c'.pc = PC.commit ∨ c'.pc = PC.ret) :
    ∀ (j : Nat) (d : Caller), (σ.callers.set t c')[j]? = some d →
      (d.result = none ↔ d.pc = PC.lock ∨ d.pc = PC.incr ∨ d.pc = PC.commit ∨ d.pc = PC.ret) := by
  intro j d hd
  rw [getElem?_set_callers σ.callers t j c c' hc] at hd
  by_cases htj : t = j
  · simp only [htj, if_true, Option.some.injEq] at hd
    rw [← hd]; exact hres
  · simp only [htj, if_false] at hd
    exact h.res j d hd

theorem Sys.excl_update (s : Nat) (σ : Sys) (h : σ.Inv s) (t : Nat) (c c' : Caller)
    (lck' : Option Nat) (hc : σ.callers[t]? = some c)
    (hself : c'.pc ≠ PC.lock → c'.pc ≠ PC.done → lck' = some t)
    (hlck : lck' = σ.lck ∨ σ.lck = none ∨ σ.lck = some t) :
    ∀ (j : Nat) (d : Caller), (σ.callers.set t c')[j]? = some d →
      d.pc ≠ PC.lock → d.pc ≠ PC.done → lck' = some j := by
  intro j d hd h1 h2
  rw [getElem?_set_callers σ.callers t j c c' hc] at hd
  by_cases htj : t = j
  · simp only [htj, if_true, Option.some.injEq] at hd
    rw [← hd] at h1 h2
    rw [← htj]; exact hself h1 h2
  · simp only [htj, if_false] at hd
    have hold := h.excl j d hd h1 h2
    rcases hlck with hl | hl | hl
    · rw [hl]; exact hold
    · rw [hl] at hold; exact Option.noConfusion hold
    · rw [hl] at hold
      exact absurd (Option.some.inj hold) htj

theorem Sys.pending_held (bk : Backend) (cs : List Caller) (t : Nat) (c : Caller)
    (hc : cs[t]? = some c) :
    Sys.pending ⟨bk, some t, cs⟩ = if c.pc = PC.commit ∨ c.pc = PC.ret then 1 else 0 := by
  simp [Sys.pending, hc]

theorem Sys.pending_free (bk : Backend) (cs : List Caller) :
    Sys.pending ⟨bk, none, cs⟩ = 0 := rfl

theorem getElem?_set_self_callers (cs : List Caller) (t : Nat) (c c' : Caller)
    (hc : cs[t]? = some c) : (cs.set t c')[t]? = some c' := by
  rw [getElem?_set_callers cs t t c c' hc]; simp

theorem Sys.held_update (cs : List Caller) (t : Nat) (c c' : Caller)
    (hc : cs[t]? = some c) (h1 : c'.pc ≠ PC.lock) (h2 : c'.pc ≠ PC.done) :
    ∀ (u : Nat), some t = some u →
      ∃ d, (cs.set t c')[u]? = some d ∧ d.pc ≠ PC.lock ∧ d.pc ≠ PC.done := by
  intro u hu
  have htu : t = u := Option.some.inj hu
  subst htu
  exact ⟨c', getElem?_set_self_callers cs t c c' hc, h1, h2⟩

theorem Sys.Inv_step (s : Nat) (σ : Sys) (t : Nat) (h : σ.Inv s) : (σ.step t).Inv s := by
  obtain ⟨bk, lck, cs⟩ := σ
  unfold Sys.step
  cases hc : cs[t]? with
  | none => simpa [hc] using h
  | some c =>
    obtain ⟨pc, r⟩ := c
    have hres := h.res t ⟨pc, r⟩ hc
    have hexcl := h.excl t ⟨pc, r⟩ hc
    have hvals := h.vals
    have hctr := h.ctr
    have hlt := h.lt
    simp only [Sys.values] at hvals hctr
    cases pc with
    | lock =>
      cases lck with
      | some u => simpa [hc] using h
      | none =>
        simp only []
        have hv := filterMap_set_same cs t ⟨PC.lock, r⟩ ⟨PC.incr, r⟩ hc rfl
        have hp := Sys.pending_held bk (cs.set t ⟨PC.incr, r⟩) t ⟨PC.incr, r⟩
          (getElem?_set_self_callers cs t _ _ hc)
        simp only [Sys.pending_free] at hctr
        refine ⟨Sys.res_update s _ h t _ _ hc (by simpa using hres),
          Sys.excl_update s _ h t _ _ _ hc (fun _ _ => rfl) (Or.inr (Or.inl rfl)),
          Sys.held_update cs t _ _ hc (by simp) (by simp), ?_, ?_, ?_⟩
        · simp only [Sys.values, hv]; exact hvals
        · simp only [Sys.values, hv, hp]; simpa using hctr
        · intro h1; rw [hp] at h1; simp at h1
    | incr =>
      have hl : lck = some t := hexcl (by simp) (by simp)
      subst hl
      simp only []
      have hv := filterMap_set_same cs t ⟨PC.incr, r⟩ ⟨PC.commit, r⟩ hc rfl
      have hp := Sys.pending_held ⟨bk.db, (bk.id + 1) % uint64Mod, bk.idLog⟩
        (cs.set t ⟨PC.commit, r⟩) t ⟨PC.commit, r⟩ (getElem?_set_self_callers cs t _ _ hc)
      have hp0 := Sys.pending_held bk cs t ⟨PC.incr, r⟩ hc
      rw [hp0] at hctr
      refine ⟨Sys.res_update s _ h t _ _ hc (by simpa using hres),
        Sys.excl_update s _ h t _ _ _ hc (fun _ _ => rfl) (Or.inl rfl),
        Sys.held_update cs t _ _ hc (by simp) (by simp), ?_, ?_, ?_⟩
      · simp only [Sys.values, hv]; exact hvals
      · simp only [Sys.values, hv, hp]
        simp only [uint64Mod] at hctr ⊢
        simp at hctr ⊢
        omega
      · intro _; exact Nat.mod_lt _ (by decide)
    | commit =>
      have hl : lck = some t := hexcl (by simp) (by simp)
      subst hl
      simp only []
      have hv := filterMap_set_same cs t ⟨PC.commit, r⟩ ⟨PC.ret, r⟩ hc rfl
      have hp := Sys.pending_held ⟨bk.db, bk.id, (commit CommitFault.ok bk.idLog bk.id).1⟩
        (cs.set t ⟨PC.ret, r⟩) t ⟨PC.ret, r⟩ (getElem?_set_self_callers cs t _ _ hc)
      have hp0 := Sys.pending_held bk cs t ⟨PC.commit, r⟩ hc
      rw [hp0] at hctr hlt
      refine ⟨Sys.res_update s _ h t _ _ hc (by simpa using hres),
        Sys.excl_update s _ h t _ _ _ hc (fun _ _ => rfl) (Or.inl rfl),
        Sys.held_update cs t _ _ hc (by simp) (by simp), ?_, ?_, ?_⟩
      · simp only [Sys.values, hv]; exact hvals
      · simp only [Sys.values, hv, hp]; simpa using hctr
      · intro _; exact hlt (by simp)
    | ret =>
      have hl : lck = some t := hexcl (by simp) (by simp)
      subst hl
      simp only []
      have hr : r = none := hres.mpr (by simp)
      subst hr
      have hv := filterMap_set_new cs t ⟨PC.ret, none⟩ ⟨PC.unlock, some bk.id⟩ bk.id hc rfl rfl
      have hp := Sys.pending_held bk (cs.set t ⟨PC.unlock, some bk.id⟩) t ⟨PC.unlock, some bk.id⟩
        (getElem?_set_self_callers cs t _ _ hc)
      have hp0 := Sys.pending_held bk cs t ⟨PC.ret, none⟩ hc
      rw [hp0] at hctr hlt
      have hid : bk.id < uint64Mod := hlt (by simp)
      have hidv : bk.id = (s + 1 + (cs.filterMap Caller.result).length) % uint64Mod := by
        simp only [uint64Mod] at hctr hid ⊢
        simp at hctr
        omega
      have hlen : ((cs.set t ⟨PC.unlock, some bk.id⟩).filterMap Caller.result).length
          = (cs.filterMap Caller.result).length + 1 := by
        rw [hv.length_eq]; rfl
      refine ⟨Sys.res_update s _ h t _ _ hc (by simp),
        Sys.excl_update s _ h t _ _ _ hc (fun _ _ => rfl) (Or.inl rfl),
        Sys.held_update cs t _ _ hc (by simp) (by simp), ?_, ?_, ?_⟩
      · simp only [Sys.values, hlen]
        rw [List.range_succ, List.map_append, List.map_singleton]
        refine hv.trans ?_
        refine List.Perm.trans ?_ (List.perm_append_singleton _ _).symm
        rw [← hidv]
        exact List.Perm.cons _ hvals
      · simp only [Sys.values, hlen, hp]
        simp only [uint64Mod] at hctr ⊢
        simp at hctr ⊢
        omega
      · intro h1; rw [hp] at h1; simp at h1
    | unlock =>
      have hl : lck = some t := hexcl (by simp) (by simp)
      subst hl
      simp only []
      have hv := filterMap_set_same cs t ⟨PC.unlock, r⟩ ⟨PC.done, r⟩ hc rfl
      have hp0 := Sys.pending_held bk cs t ⟨PC.unlock, r⟩ hc
      rw [hp0] at hctr
      refine ⟨Sys.res_update s _ h t _ _ hc (by simpa using hres),
        Sys.excl_update s _ h t _ _ _ hc (fun _ h2 => absurd rfl h2) (Or.inr (Or.inr rfl)),
        fun u hu => Option.noConfusion hu, ?_, ?_, ?_⟩
      · simp only [Sys.values, hv]; exact hvals
      · simp only [Sys.values, hv, Sys.pending_free]; simpa using hctr
      · intro h1; simp [Sys.pending_free] at h1
    | done => simpa [hc] using h

theorem Sys.Inv_init (b : Backend) (n : Nat) : (Sys.init b n).Inv b.id := by
  have hv : (List.replicate n (⟨PC.lock, none⟩ : Caller)).filterMap Caller.result = [] := by
    induction n with
    | zero => rfl
    | succ n ih => simp [List.replicate_succ, List.filterMap_cons, ih]
  refine ⟨?_, ?_, fun u hu => Option.noConfusion hu, ?_, ?_, ?_⟩
  · intro t c hc
    simp only [Sys.init, List.getElem?_replicate] at hc
    split at hc
    · simp only [Option.some.injEq] at hc
      rw [← hc]; simp
    · exact Option.noConfusion hc
  · intro t c hc h1
    simp only [Sys.init, List.getElem?_replicate] at hc
    split at hc
    · simp only [Option.some.injEq] at hc
      rw [← hc] at h1; exact absurd rfl h1
    · exact Option.noConfusion hc
  · simp [Sys.values, Sys.init, hv]
  · simp [Sys.values, Sys.init, hv, Sys.pending]
  · intro h1; simp [Sys.init, Sys.pending] at h1

theorem Sys.Inv_run (s : Nat) (sched : List Nat) : ∀ σ : Sys, σ.Inv s → (σ.run sched).Inv s := by
  induction sched with
  | nil => intro σ h; exact h
  | cons t rest ih =>
    intro σ h
    exact ih (σ.step t) (Sys.Inv_step s σ t h)

theorem Sys.step_length (σ : Sys) (t : Nat) : (σ.step t).callers.length = σ.callers.length := by
  unfold Sys.step
  cases hc : σ.callers[t]? with
  | none => rfl
  | some c =>
    obtain ⟨pc, r⟩ := c
    cases pc with
    | lock => cases hl : σ.lck <;> simp
    | incr => simp
    | commit => simp
    | ret => simp
    | unlock => simp
    | done => simp

theorem Sys.run_length (sched : List Nat) : ∀ σ : Sys,
    (σ.run sched).callers.length = σ.callers.length := by
  induction sched with
  | nil => intro σ; rfl
  | cons t rest ih =>
    intro σ
    exact (ih (σ.step t)).trans (Sys.step_length σ t)

theorem map_result_of_all_some : ∀ cs : List Caller, (∀ c ∈ cs, c.result ≠ none) →
    cs.map Caller.result = (cs.filterMap Caller.result).map some
  | [], _ => rfl
  | a :: as, h => by
    have ih := map_result_of_all_some as (fun c hc => h c (by simp [hc]))
    have ha := h a (by simp)
    cases hr : a.result with
    | none => exact absurd hr ha
    | some v => simp [List.filterMap_cons, hr, ih]

theorem uint64_values_nodup (s n : Nat) (hn : n ≤ uint64Mod) :
    ((List.range n).map (fun i => (s + 1 + i) % uint64Mod)).Nodup := by
  apply List.Nodup.map_on
  · intro x hx y hy hxy
    rw [List.mem_range] at hx hy
    simp only [uint64Mod] at hn hxy
    omega
  · exact List.nodup_range n

/-- The outcome of any complete run of `n` concurrent callers. -/
theorem Sys.run_complete (b : Backend) (n : Nat) (sched : List Nat)
    (hdone : ∀ c ∈ ((Sys.init b n).run sched).callers, c.pc = PC.done) :
    ((Sys.init b n).run sched).callers.map Caller.result
      = ((Sys.init b n).run sched).values.map some ∧
    ((Sys.init b n).run sched).values.length = n ∧
    ((Sys.init b n).run sched).values.Perm
      ((List.range n).map (fun i => (b.id + 1 + i) % uint64Mod)) := by
  have hinv := Sys.Inv_run b.id sched (Sys.init b n) (Sys.Inv_init b n)
  have hsome : ∀ c ∈ ((Sys.init b n).run sched).callers, c.result ≠ none := by
    intro c hc hr
    obtain ⟨t, ht⟩ := List.mem_iff_getElem?.mp hc
    have hpc := (hinv.res t c ht).mp hr
    rw [hdone c hc] at hpc
    simp at hpc
  have hmap := map_result_of_all_some _ hsome
  have hlen : ((Sys.init b n).run sched).values.length = n := by
    have h1 := congrArg List.length hmap
    simp only [List.length_map] at h1
    rw [Sys.values, ← h1, Sys.run_length]
    simp [Sys.init]
  refine ⟨hmap, hlen, ?_⟩
  have hv := hinv.vals
  rw [hlen] at hv
  exact hv

/-- A caller that runs alone from a free lock performs exactly `Backend.NextID`. -/
theorem Sys.solo_run (bk : Backend) (cs : List Caller) (t : Nat) (r : Option Nat)
    (hc : cs[t]? = some ⟨PC.lock, r⟩) :
    Sys.run [t, t, t, t, t] ⟨bk, none, cs⟩ =
      ⟨(Backend.NextID CommitFault.ok bk).1, none,
        cs.set t ⟨PC.done, some (Backend.NextID CommitFault.ok bk).2.1⟩⟩ := by
  have h1 : ∀ c', (cs.set t c')[t]? = some c' :=
    fun c' => getElem?_set_self_callers cs t _ c' hc
  simp [Sys.run, Sys.step, hc, h1, List.set_set, NextID_ok, commit_ok]

theorem Sys.run_append (a b : List Nat) (σ : Sys) :
    Sys.run (a ++ b) σ = Sys.run b (Sys.run a σ) := by
  simp [Sys.run, List.foldl_append]

/-- The lock holder can always finish its call: four of its steps release the lock. -/
theorem Sys.finish_holder (bk : Backend) (cs : List Caller) (t : Nat) (c : Caller)
    (hc : cs[t]? = some c) (h1 : c.pc ≠ PC.lock) (h2 : c.pc ≠ PC.done) :
    (Sys.run [t, t, t, t] ⟨bk, some t, cs⟩).lck = none ∧
    (∀ d : Caller, (Sys.run [t, t, t, t] ⟨bk, some t, cs⟩).callers[t]? = some d →
      d.pc = PC.done) ∧
    (∀ j : Nat, j ≠ t → (Sys.run [t, t, t, t] ⟨bk, some t, cs⟩).callers[j]? = cs[j]?) := by
  have hs : ∀ c', (cs.set t c')[t]? = some c' :=
    fun c' => getElem?_set_self_callers cs t _ c' hc
  have hne : ∀ c' j, j ≠ t → (cs.set t c')[j]? = cs[j]? := by
    intro c' j hj
    rw [getElem?_set_callers cs t j c c' hc]
    simp [Ne.symm hj]
  obtain ⟨pc, r⟩ := c
  cases pc with
  | lock => exact absurd rfl h1
  | done => exact absurd rfl h2
  | incr =>
    have hrun : Sys.run [t, t, t, t] ⟨bk, some t, cs⟩ =
        ⟨⟨bk.db, (bk.id + 1) % uint64Mod,
          (commit CommitFault.ok bk.idLog ((bk.id + 1) % uint64Mod)).1⟩, none,
          cs.set t ⟨PC.done, some ((bk.id + 1) % uint64Mod)⟩⟩ := by
      simp [Sys.run, Sys.step, hc, hs, List.set_set]
    rw [hrun]
    refine ⟨rfl, ?_, hne _⟩
    intro d hd
    rw [hs] at hd
    simp only [Option.some.injEq] at hd
    rw [← hd]
  | commit =>
    have hrun : Sys.run [t, t, t, t] ⟨bk, some t, cs⟩ =
        ⟨⟨bk.db, bk.id, (commit CommitFault.ok bk.idLog bk.id).1⟩, none,
          cs.set t ⟨PC.done, some bk.id⟩⟩ := by
      simp [Sys.run, Sys.step, hc, hs, List.set_set]
    rw [hrun]
    refine ⟨rfl, ?_, hne _⟩
    intro d hd
    rw [hs] at hd
    simp only [Option.some.injEq] at hd
    rw [← hd]
  | ret =>
    have hrun : Sys.run [t, t, t, t] ⟨bk, some t, cs⟩ =
        ⟨bk, none, cs.set t ⟨PC.done, some bk.id⟩⟩ := by
      simp [Sys.run, Sys.step, hc, hs, List.set_set]
    rw [hrun]
    refine ⟨rfl, ?_, hne _⟩
    intro d hd
    rw [hs] at hd
    simp only [Option.some.injEq] at hd
    rw [← hd]
  | unlock =>
    have hrun : Sys.run [t, t, t, t] ⟨bk, some t, cs⟩ =
        ⟨bk, none, cs.set t ⟨PC.done, r⟩⟩ := by
      simp [Sys.run, Sys.step, hc, hs, List.set_set]
    rw [hrun]
    refine ⟨rfl, ?_, hne _⟩
    intro d hd
    rw [hs] at hd
    simp only [Option.some.injEq] at hd
    rw [← hd]

/-- With the lock free, five steps of a caller that has not started or has returned
leave it returned, the lock free, and the other callers as they were. -/
theorem Sys.solo_idle (bk : Backend) (cs : List Caller) (t : Nat)
    (h : ∀ c : Caller, cs[t]? = some c → c.pc = PC.lock ∨ c.pc = PC.done) :
    (Sys.run [t, t, t, t, t] ⟨bk, none, cs⟩).lck = none ∧
    (∀ d : Caller, (Sys.run [t, t, t, t, t] ⟨bk, none, cs⟩).callers[t]? = some d →
      d.pc = PC.done) ∧
    (∀ j : Nat, j ≠ t → (Sys.run [t, t, t, t, t] ⟨bk, none, cs⟩).callers[j]? = cs[j]?) := by
  cases hc : cs[t]? with
  | none =>
    have hrun : Sys.run [t, t, t, t, t] ⟨bk, none, cs⟩ = ⟨bk, none, cs⟩ := by
      simp [Sys.run, Sys.step, hc]
    rw [hrun]
    refine ⟨rfl, ?_, fun _ _ => rfl⟩
    intro d hd
    rw [hc] at hd
    exact Option.noConfusion hd
  | some c =>
    obtain ⟨pc, r⟩ := c
    rcases h _ hc with hpc | hpc
    · simp only at hpc
      subst hpc
      rw [Sys.solo_run bk cs t r hc]
      refine ⟨rfl, ?_, ?_⟩
      · intro d hd
        rw [getElem?_set_self_callers cs t _ _ hc] at hd
        simp only [Option.some.injEq] at hd
        rw [← hd]
      · intro j hj
        rw [getElem?_set_callers cs t j _ _ hc]
        simp [Ne.symm hj]
    · simp only at hpc
      subst hpc
      have hrun : Sys.run [t, t, t, t, t] ⟨bk, none, cs⟩ = ⟨bk, none, cs⟩ := by
        simp [Sys.run, Sys.step, hc]
      rw [hrun]
      refine ⟨rfl, ?_, fun _ _ => rfl⟩
      intro d hd
      rw [hc] at hd
      simp only [Option.some.injEq] at hd
      rw [← hd]

theorem Sys.seq_idle : ∀ (n base : Nat) (σ : Sys), σ.lck = none →
    (∀ (j : Nat) (c : Caller), σ.callers[j]? = some c → c.pc = PC.lock ∨ c.pc = PC.done) →
    (∀ (j : Nat) (c : Caller), j < base → σ.callers[j]? = some c → c.pc = PC.done) →
    ∀ (j : Nat) (c : Caller), j < base + n →
      (Sys.run (seqSchedule base n) σ).callers[j]? = some c → c.pc = PC.done
  | 0, base, σ, _, _, hlow => by
    intro j c hj hc
    exact hlow j c (by omega) hc
  | n + 1, base, σ, hfree, hidle, hlow => by
    obtain ⟨bk, lck, cs⟩ := σ
    simp only at hfree hidle hlow
    subst hfree
    have hsplit : Sys.run (seqSchedule base (n + 1)) ⟨bk, none, cs⟩ =
        Sys.run (seqSchedule (base + 1) n)
          (Sys.run [base, base, base, base, base] ⟨bk, none, cs⟩) := by
      simp [seqSchedule, Sys.run]
    obtain ⟨hl, hself, hother⟩ := Sys.solo_idle bk cs base (fun c hc => hidle base c hc)
    rw [hsplit]
    intro j c hj hc
    refine Sys.seq_idle n (base + 1) _ hl ?_ ?_ j c (by omega) hc
    · intro i d hd
      by_cases hi : i = base
      · subst hi; exact Or.inr (hself d hd)
      · rw [hother i hi] at hd
        exact hidle i d hd
    · intro i d hi hd
      by_cases hib : i = base
      · subst hib; exact hself d hd
      · rw [hother i hib] at hd
        exact hlow i d (by omega) hd

theorem Sys.seq_all_done (n : Nat) (σ : Sys) (hfree : σ.lck = none) (hlen : σ.callers.length = n)
    (hidle : ∀ (j : Nat) (c : Caller), σ.callers[j]? = some c → c.pc = PC.lock ∨ c.pc = PC.done) :
    ∀ c ∈ (Sys.run (seqSchedule 0 n) σ).callers, c.pc = PC.done := by
  intro c hc
  obtain ⟨j, hj⟩ := List.mem_iff_getElem?.mp hc
  have hlt : j < n := by
    rcases List.getElem?_eq_some.mp hj with ⟨hlt, _⟩
    rw [Sys.run_length] at hlt
    omega
  exact Sys.seq_idle n 0 σ hfree hidle (fun i d hi _ => absurd hi (Nat.not_lt_zero i)) j c
    (by omega) hj

/-- Freedom from deadlock: whatever has been scheduled so far, the run can be continued
so that every caller returns. -/
theorem Sys.can_complete (b : Backend) (n : Nat) (sched : List Nat) :
    ∃ ext, ∀ c ∈ ((Sys.init b n).run (sched ++ ext)).callers, c.pc = PC.done := by
  have hinv := Sys.Inv_run b.id sched (Sys.init b n) (Sys.Inv_init b n)
  have hlen : ((Sys.init b n).run sched).callers.length = n := by
    rw [Sys.run_length]; simp [Sys.init]
  cases hl : ((Sys.init b n).run sched).lck with
  | none =>
    refine ⟨seqSchedule 0 n, ?_⟩
    rw [Sys.run_append]
    refine Sys.seq_all_done n _ hl hlen ?_
    intro j c hc
    by_cases h1 : c.pc = PC.lock
    · exact Or.inl h1
    · by_cases h2 : c.pc = PC.done
      · exact Or.inr h2
      · have := hinv.excl j c hc h1 h2
        rw [hl] at this
        exact Option.noConfusion this
  | some t =>
    obtain ⟨c, hc, h1, h2⟩ := hinv.held t hl
    refine ⟨[t, t, t, t] ++ seqSchedule 0 n, ?_⟩
    rw [Sys.run_append, Sys.run_append]
    generalize hσ : (Sys.init b n).run sched = σ at hinv hlen hl hc
    obtain ⟨bk, lck, cs⟩ := σ
    simp only at hl hc hlen
    subst hl
    obtain ⟨hfree, hself, hother⟩ := Sys.finish_holder bk cs t c hc h1 h2
    refine Sys.seq_all_done n _ hfree ?_ ?_
    · rw [Sys.run_length]; exact hlen
    · intro j d hd
      by_cases hj : j = t
      · subst hj; exact Or.inr (hself d hd)
      · rw [hother j hj] at hd
        by_cases h3 : d.pc = PC.lock
        · exact Or.inl h3
        · by_cases h4 : d.pc = PC.done
          · exact Or.inr h4
          · have := hinv.excl j d hd h3 h4
            simp only [Option.some.injEq] at this
            exact absurd this.symm hj

theorem Backend.Put_WF (fault : Option Err) (b : Backend) (key buf : Bytes) (h : b.db.WF) :
    (Backend.Put fault b key buf).1.db.WF := by
  cases fault with
  | none => exact dbInsert_WF b.db key buf h
  | some e => exact h

theorem Backend.Del_WF (fault : Option Err) (b : Backend) (key : Bytes) (h : b.db.WF) :
    (Backend.Del fault b key).1.db.WF := by
  cases fault with
  | none => exact dbErase_WF b.db key h
  | some e => exact h

/-- C10, as stated, fails near the top of the `uint64` range. With in-memory counter
`s = 2^64 - 1`, let 100 callers run (here one after the other, which is one of the possible
interleavings): all of them return, and caller 0 receives 0, which is not in
`{s+1, ..., s+100}`. -/
theorem concurrent_nextID_wraps_counterexample :
    (∀ c ∈ ((Sys.init ⟨[], 2 ^ 64 - 1, none⟩ 100).run (seqSchedule 0 100)).callers,
      c.pc = PC.done) ∧
    (((Sys.init ⟨[], 2 ^ 64 - 1, none⟩ 100).run (seqSchedule 0 100)).callers.map
      Caller.result)[0]? = some (some 0) ∧
    ¬ ((2 ^ 64 - 1) + 1 ≤ 0 ∧ 0 ≤ (2 ^ 64 - 1) + 100) := by
  decide!

/-- C10, amended. For every backend with in-memory counter `s` and every number
`n ≤ 2^64` of callers (in particular 100) that invoke `NextID` concurrently within one
process, all counter-file writes succeeding: whatever has been scheduled so far, the run
can be continued until every caller has returned; and when every caller has returned,
each caller has received a value, the values are pairwise distinct, and their set is
exactly `{(s+1) mod 2^64, ..., (s+n) mod 2^64}`, which is `{s+1, ..., s+n}` when
`s + n < 2^64`. -/
theorem concurrent_nextID_distinct (b : Backend) (n : Nat) (sched : List Nat)
    (hn : n ≤ uint64Mod) :
    (∃ ext, ∀ c ∈ ((Sys.init b n).run (sched ++ ext)).callers, c.pc = PC.done) ∧
    ((∀ c ∈ ((Sys.init b n).run sched).callers, c.pc = PC.done) →
      ∃ vals : List Nat,
        ((Sys.init b n).run sched).callers.map Caller.result = vals.map some ∧
        vals.length = n ∧ vals.Nodup ∧
        (∀ v, v ∈ vals ↔ ∃ i, i < n ∧ v = (b.id + 1 + i) % uint64Mod) ∧
        (b.id + n < uint64Mod → ∀ v, v ∈ vals ↔ b.id + 1 ≤ v ∧ v ≤ b.id + n)) := by
  refine ⟨Sys.can_complete b n sched, ?_⟩
  intro hdone
  obtain ⟨hmap, hlen, hperm⟩ := Sys.run_complete b n sched hdone
  have hmem : ∀ v, v ∈ ((Sys.init b n).run sched).values ↔
      ∃ i, i < n ∧ v = (b.id + 1 + i) % uint64Mod := by
    intro v
    rw [hperm.mem_iff, List.mem_map]
    constructor
    · rintro ⟨i, hi, hv⟩
      exact ⟨i, List.mem_range.mp hi, hv.symm⟩
    · rintro ⟨i, hi, hv⟩
      exact ⟨i, List.mem_range.mpr hi, hv.symm⟩
  refine ⟨_, hmap, hlen, ?_, hmem, ?_⟩
  · exact hperm.nodup_iff.mpr (uint64_values_nodup b.id n hn)
  · intro hlt v
    rw [hmem v]
    constructor
    · rintro ⟨i, hi, hv⟩
      rw [Nat.mod_eq_of_lt (by omega)] at hv
      omega
    · rintro ⟨h1, h2⟩
      refine ⟨v - (b.id + 1), by omega, ?_⟩
      rw [Nat.mod_eq_of_lt (by omega)]
      omega

/-- Witness of `concurrent_nextID_distinct`: two callers on counter 10; caller 1 asks for
the lock while caller 0 holds it. -/
theorem concurrent_nextID_distinct_witness :
    ∃ vals : List Nat,
      ((Sys.init ⟨[], 10, none⟩ 2).run [0, 1, 0, 1, 0, 0, 0, 1, 1, 1, 1, 1]).callers.map
        Caller.result = vals.map some ∧
      vals.length = 2 ∧ vals.Nodup ∧
      (∀ v, v ∈ vals ↔ ∃ i, i < 2 ∧ v = (10 + 1 + i) % uint64Mod) ∧
      ((10 : Nat) + 2 < uint64Mod → ∀ v, v ∈ vals ↔ 10 + 1 ≤ v ∧ v ≤ 10 + 2) :=
  (concurrent_nextID_distinct ⟨[], 10, none⟩ 2 [0, 1, 0, 1, 0, 0, 0, 1, 1, 1, 1, 1]
    (by decide)).2 (by decide)

end GoLinks
